import Mathlib

/-!
Shallow embedding of the goamt job-tracking store (github.com/jamesl33/goamt).

Files embedded:
* `utils/hash.go` — sampled CRC32 content fingerprint (`HashFile`, `hashReader`).
* `utils/path.go` — `PathExists`, `ReplaceExtension`.
* `database/database.go` — the entry repository and job ledger
  (`Create`, `Upsert`, `Remove`, `BeginTranscoding`, `CompleteTranscoding`,
  `CancelTranscoding`, `recoverIncompleteJobs` and helpers).
* `cmd/pool.go` — the worker pool's `Stop` drain step.

Machine integers are modelled as `Nat` (all CRC values stay below `2^32`),
time stamps as `Int`, the filesystem as an association list from paths to
byte lists, and the SQLite tables as Lean lists.  Fallible operations return
`Except DBError`; a transaction that fails is rolled back, so on an error the
caller keeps the previous store.
-/

namespace Goamt

/-! ### Content fingerprint (`utils/hash.go`) -/

/-- `BufferSize` — the amount of data read from disk before seeking. -/
def BufferSize : Nat := 4096

/-- `MaxSeekSize` — the max size of a seek operation (64 MiB). -/
def MaxSeekSize : Nat := 64 * 1024 * 1024

/-- The reversed IEEE CRC32 polynomial used by Go's `crc32.IEEETable`. -/
def crcPoly : Nat := 0xEDB88320

/-- One shift-and-conditionally-xor step of the bit-serial CRC32. -/
def crcStep (c : Nat) : Nat :=
  if c % 2 = 1 then (c / 2) ^^^ crcPoly else c / 2

/-- `n` iterations of `crcStep`. -/
def crcSteps : Nat → Nat → Nat
  | 0, c => c
  | n + 1, c => crcSteps n (crcStep c)

/-- Fold one byte into the CRC accumulator (bit-serial form of Go's
table-driven `crc32.Update` inner step). -/
def crcByte (c b : Nat) : Nat := crcSteps 8 (c ^^^ (b % 256))

/-- `crc32.Update(crc, crc32.IEEETable, data)` — Go complements the
accumulator on entry and on exit, so the digest can be folded blockwise. -/
def crc32Update (crc : Nat) (data : List Nat) : Nat :=
  (data.foldl crcByte (crc ^^^ 0xFFFFFFFF)) ^^^ 0xFFFFFFFF

/-- One pass of `hashReader`'s loop, fuelled: read up to `BufferSize` bytes at
`pos`, stop on an empty read, otherwise fold the block into the digest and
seek `digest % MaxSeekSize` bytes past the end of the block.  The fuel only
bounds the recursion; `data.length + 1` steps always suffice because every
non-final iteration consumes at least one byte. -/
def hashReaderAux (fuel : Nat) (data : List Nat) (pos digest : Nat) : Nat :=
  match fuel with
  | 0 => digest
  | fuel + 1 =>
    let chunk := (data.drop pos).take BufferSize
    if chunk.length = 0 then
      digest
    else
      let digest := crc32Update digest chunk
      hashReaderAux fuel data (pos + chunk.length + digest % MaxSeekSize) digest

/-- `hashReader` — the CRC32 of the provided reader, by sampled reads. -/
def hashReader (data : List Nat) : Nat :=
  hashReaderAux (data.length + 1) data 0 0

/-! ### Paths (`utils/path.go`) -/

/-- `filepath.Ext` scan over the reversed character list: walk back from the
end of the path, stop at a path separator, return everything from the last
dot (inclusive) onwards. -/
def extRev : List Char → Option (List Char)
  | [] => none
  | c :: rest =>
    if c = '/' then none
    else if c = '.' then some [c]
    else (extRev rest).map (c :: ·)

/-- `filepath.Ext` — the file name extension, empty if there is no dot. -/
def filepathExt (path : String) : String :=
  match extRev path.data.reverse with
  | none => ""
  | some l => ⟨l.reverse⟩

/-- `ReplaceExtension` — `strings.TrimSuffix(path, filepath.Ext(path)) + extension`. -/
def ReplaceExtension (path extension : String) : String :=
  ⟨path.data.take (path.data.length - (filepathExt path).data.length) ++ extension.data⟩

/-- `value.TargetExtension`. -/
def TargetExtension : String := ".mp4"

/-- `value.TranscodingExtension`. -/
def TranscodingExtension : String := ".transcoding" ++ TargetExtension

/-! ### GF(2) linearity infrastructure for the fingerprint

`crcStep` is linear over GF(2) (xor), so folding `n` equal bytes into the
digest is an affine map whose matrix we can compute by repeated squaring.
This lets the per-byte collision condition be checked for all 256 byte
values without evaluating four thousand CRC steps per byte. -/

/-- Apply a GF(2) matrix given by its columns to a bit vector: xor together
the columns at the set bits of `x`. -/
def applyM : List Nat → Nat → Nat
  | [], _ => 0
  | col :: rest, x => (if x % 2 = 1 then col else 0) ^^^ applyM rest (x / 2)

/-- The columns `f 1, f 2, f 4, …` of an additive `f`, lowest bit first. -/
def basisCols (f : Nat → Nat) : Nat → List Nat
  | 0 => []
  | len + 1 => f 1 :: basisCols (fun y => f (2 * y)) len

/-- The identity matrix on 32 bits. -/
def idCols : List Nat := (List.range 32).map (fun j => 2 ^ j)

/-- The matrix of `crcSteps 8` (one byte-fold without the data xor). -/
def colsF : List Nat := (List.range 32).map (fun j => crcSteps 8 (2 ^ j))

/-- Square a matrix: apply it to each of its own columns. -/
def sqCols (cols : List Nat) : List Nat := cols.map (applyM cols)

/-- Matrix of `(crcSteps 8)^(2^k)` by repeated squaring. -/
def powFCols : Nat → List Nat
  | 0 => colsF
  | k + 1 => sqCols (powFCols k)

/-- Matrix of the geometric sum `I ⊕ F ⊕ … ⊕ F^(2^k - 1)`. -/
def sumFCols : Nat → List Nat
  | 0 => idCols
  | k + 1 => (sumFCols k).map (fun s => s ^^^ applyM (powFCols k) s)

/-- `n`-fold iterate of `crcSteps 8`. -/
def powF (n x : Nat) : Nat := (crcSteps 8)^[n] x

/-- Geometric xor-sum `x ⊕ F x ⊕ … ⊕ F^(n-1) x`. -/
def sumF : Nat → Nat → Nat
  | 0, _ => 0
  | n + 1, g => sumF n g ^^^ powF n g

lemma xor_div_two (a b : Nat) : (a ^^^ b) / 2 = a / 2 ^^^ b / 2 := by
  rw [← Nat.shiftRight_one, ← Nat.shiftRight_one, ← Nat.shiftRight_one]
  refine Nat.eq_of_testBit_eq fun i => ?_
  simp [Nat.testBit_shiftRight, Nat.testBit_xor]

lemma two_mul_xor (a b : Nat) : 2 * (a ^^^ b) = 2 * a ^^^ 2 * b := by
  refine Nat.eq_of_testBit_eq fun i => ?_
  cases i with
  | zero => simp [Nat.testBit_zero, Nat.mul_mod_right, Nat.testBit_xor]
  | succ i =>
    simp only [Nat.testBit_succ, xor_div_two, Nat.mul_div_cancel_left _ (by norm_num : 0 < 2)]

lemma one_xor_two_mul (k : Nat) : 1 ^^^ 2 * k = 2 * k + 1 := by
  refine Nat.eq_of_testBit_eq fun i => ?_
  cases i with
  | zero =>
    have h1 : (1 + 2 * k) % 2 = 1 := by omega
    have h2 : (2 * k + 1) % 2 = 1 := by omega
    simp [Nat.testBit_zero, Nat.xor_mod_two_eq, h1, h2]
  | succ i =>
    have h1 : (2 * k + 1) / 2 = k := by omega
    have h3 : (1 : Nat) / 2 = 0 := by norm_num
    have h2 : (2 * k) / 2 = k := by omega
    simp only [Nat.testBit_succ, xor_div_two, h1, h2, h3, Nat.zero_xor]

lemma xor_mix (x y z w : Nat) : (x ^^^ y) ^^^ (z ^^^ w) = (x ^^^ z) ^^^ (y ^^^ w) := by
  refine Nat.eq_of_testBit_eq fun i => ?_
  simp only [Nat.testBit_xor]
  cases x.testBit i <;> cases y.testBit i <;> cases z.testBit i <;> cases w.testBit i <;> rfl

lemma crcStep_xor (a b : Nat) : crcStep (a ^^^ b) = crcStep a ^^^ crcStep b := by
  have hab : (a ^^^ b) % 2 = (a + b) % 2 := Nat.xor_mod_two_eq
  unfold crcStep
  rcases Nat.mod_two_eq_zero_or_one a with ha | ha <;>
    rcases Nat.mod_two_eq_zero_or_one b with hb | hb
  · have h : ¬ ((a ^^^ b) % 2 = 1) := by rw [hab]; omega
    rw [if_neg h, if_neg (by omega : ¬ (a % 2 = 1)), if_neg (by omega : ¬ (b % 2 = 1)),
      xor_div_two]
  · have h : (a ^^^ b) % 2 = 1 := by rw [hab]; omega
    rw [if_pos h, if_neg (by omega : ¬ (a % 2 = 1)), if_pos hb, xor_div_two, Nat.xor_assoc]
  · have h : (a ^^^ b) % 2 = 1 := by rw [hab]; omega
    rw [if_pos h, if_pos ha, if_neg (by omega : ¬ (b % 2 = 1)), xor_div_two, Nat.xor_assoc,
      Nat.xor_comm (b / 2) crcPoly, ← Nat.xor_assoc]
  · have h : ¬ ((a ^^^ b) % 2 = 1) := by rw [hab]; omega
    rw [if_neg h, if_pos ha, if_pos hb, xor_div_two, xor_mix, Nat.xor_self, Nat.xor_zero]

lemma crcStep_zero : crcStep 0 = 0 := rfl

lemma crcSteps_xor (n a b : Nat) : crcSteps n (a ^^^ b) = crcSteps n a ^^^ crcSteps n b := by
  induction n generalizing a b with
  | zero => rfl
  | succ n ih => simp only [crcSteps]; rw [crcStep_xor]; exact ih _ _

lemma crcSteps_zero (n : Nat) : crcSteps n 0 = 0 := by
  induction n with
  | zero => rfl
  | succ n ih => simp only [crcSteps, crcStep_zero]; exact ih

lemma crcStep_lt {c : Nat} (h : c < 2 ^ 32) : crcStep c < 2 ^ 32 := by
  unfold crcStep
  have hd : c / 2 < 2 ^ 32 := lt_of_le_of_lt (Nat.div_le_self c 2) h
  split
  · exact Nat.xor_lt_two_pow hd (by norm_num [crcPoly])
  · exact hd

lemma crcSteps_lt {c : Nat} (n : Nat) (h : c < 2 ^ 32) : crcSteps n c < 2 ^ 32 := by
  induction n generalizing c with
  | zero => exact h
  | succ n ih => exact ih (crcStep_lt h)

lemma applyM_zero (cols : List Nat) : applyM cols 0 = 0 := by
  induction cols with
  | nil => rfl
  | cons col rest ih => simp [applyM, ih]

lemma applyM_xor (cols : List Nat) (a b : Nat) :
    applyM cols (a ^^^ b) = applyM cols a ^^^ applyM cols b := by
  induction cols generalizing a b with
  | nil => simp [applyM]
  | cons col rest ih =>
    simp only [applyM, xor_div_two, ih]
    rw [xor_mix]
    congr 1
    have hab : (a ^^^ b) % 2 = (a + b) % 2 := Nat.xor_mod_two_eq
    rcases Nat.mod_two_eq_zero_or_one a with ha | ha <;>
      rcases Nat.mod_two_eq_zero_or_one b with hb | hb
    · rw [if_neg (by rw [hab]; omega), if_neg (by omega), if_neg (by omega), Nat.xor_zero]
    · rw [if_pos (by rw [hab]; omega), if_neg (by omega), if_pos hb, Nat.zero_xor]
    · rw [if_pos (by rw [hab]; omega), if_pos ha, if_neg (by omega), Nat.xor_zero]
    · rw [if_neg (by rw [hab]; omega), if_pos ha, if_pos hb, Nat.xor_self]

lemma applyM_basisCols (len : Nat) :
    ∀ (f : Nat → Nat), (∀ a b, f (a ^^^ b) = f a ^^^ f b) → f 0 = 0 →
      ∀ x, x < 2 ^ len → applyM (basisCols f len) x = f x := by
  induction len with
  | zero =>
    intro f _ h0 x hx
    interval_cases x
    simpa [basisCols, applyM] using h0.symm
  | succ len ih =>
    intro f hadd h0 x hx
    have hadd2 : ∀ a b, f (2 * (a ^^^ b)) = f (2 * a) ^^^ f (2 * b) := fun a b => by
      rw [two_mul_xor, hadd]
    have h02 : f (2 * 0) = 0 := by simpa using h0
    have hdiv : x / 2 < 2 ^ len := by
      rw [Nat.div_lt_iff_lt_mul (by norm_num : (0 : Nat) < 2)]
      calc x < 2 ^ (len + 1) := hx
        _ = 2 ^ len * 2 := by ring
    have hrec := ih (fun y => f (2 * y)) hadd2 h02 (x / 2) hdiv
    simp only [basisCols, applyM, hrec]
    rcases Nat.mod_two_eq_zero_or_one x with hpar | hpar
    · rw [if_neg (by omega), Nat.zero_xor]
      congr 1
      omega
    · rw [if_pos hpar, ← hadd, one_xor_two_mul]
      congr 1
      omega

lemma basisCols_eq_map (len : Nat) :
    ∀ f : Nat → Nat, basisCols f len = (List.range len).map (fun j => f (2 ^ j)) := by
  induction len with
  | zero => intro f; rfl
  | succ len ih =>
    intro f
    rw [show basisCols f (len + 1) = f 1 :: basisCols (fun y => f (2 * y)) len from rfl,
      ih (fun y => f (2 * y)), List.range_succ_eq_map, List.map_cons, List.map_map]
    refine congrArg₂ _ (by rw [pow_zero]) (List.map_congr_left fun j _ => ?_)
    show f (2 * 2 ^ j) = f (2 ^ (j + 1))
    rw [pow_succ, mul_comm]

/-- An additive, zero-preserving map on 32-bit values is computed by the
matrix of its basis images. -/
lemma applyM_cols32 (f : Nat → Nat) (hadd : ∀ a b, f (a ^^^ b) = f a ^^^ f b)
    (h0 : f 0 = 0) (x : Nat) (hx : x < 2 ^ 32) :
    applyM ((List.range 32).map (fun j => f (2 ^ j))) x = f x := by
  rw [← basisCols_eq_map]
  exact applyM_basisCols 32 f hadd h0 x hx

lemma powF_xor (n a b : Nat) : powF n (a ^^^ b) = powF n a ^^^ powF n b := by
  unfold powF
  induction n generalizing a b with
  | zero => rfl
  | succ n ih => rw [Function.iterate_succ_apply, Function.iterate_succ_apply,
      Function.iterate_succ_apply, crcSteps_xor, ih]

lemma powF_zero_val (n : Nat) : powF n 0 = 0 := by
  unfold powF
  induction n with
  | zero => rfl
  | succ n ih => rw [Function.iterate_succ_apply, crcSteps_zero, ih]

lemma powF_lt {x : Nat} (n : Nat) (h : x < 2 ^ 32) : powF n x < 2 ^ 32 := by
  unfold powF
  induction n generalizing x with
  | zero => exact h
  | succ n ih => rw [Function.iterate_succ_apply]; exact ih (crcSteps_lt 8 h)

lemma powF_add (m n x : Nat) : powF (m + n) x = powF m (powF n x) :=
  Function.iterate_add_apply _ m n x

lemma sumF_xor (n a b : Nat) : sumF n (a ^^^ b) = sumF n a ^^^ sumF n b := by
  induction n with
  | zero => simp [sumF]
  | succ n ih =>
    simp only [sumF, ih, powF_xor]
    rw [xor_mix]

lemma sumF_lt {g : Nat} (n : Nat) (h : g < 2 ^ 32) : sumF n g < 2 ^ 32 := by
  induction n with
  | zero => simp only [sumF]; positivity
  | succ n ih => exact Nat.xor_lt_two_pow ih (powF_lt n h)

lemma sumF_one (g : Nat) : sumF 1 g = g := by
  simp [sumF, powF]

/-- Splitting a geometric xor-sum: the first `m` terms shifted by `F^n`. -/
lemma sumF_add (m n g : Nat) : sumF (n + m) g = sumF n g ^^^ powF n (sumF m g) := by
  induction m with
  | zero => simp [sumF, powF_zero_val]
  | succ m ih =>
    have h1 : n + (m + 1) = (n + m) + 1 := by omega
    rw [h1, sumF, ih, Nat.xor_assoc, powF_add n m, ← powF_xor,
      show sumF (m + 1) g = sumF m g ^^^ powF m g from rfl]

lemma sumF_double (m g : Nat) : sumF (2 * m) g = sumF m g ^^^ powF m (sumF m g) := by
  rw [two_mul, sumF_add]

/-- `powFCols k` really is the matrix of `F^(2^k)`. -/
lemma powFCols_eq (k : Nat) :
    powFCols k = (List.range 32).map (fun j => powF (2 ^ k) (2 ^ j)) := by
  induction k with
  | zero =>
    simp only [powFCols, colsF, pow_zero]
    exact List.map_congr_left fun j _ => by rw [show powF 1 (2 ^ j) = crcSteps 8 (2 ^ j) from rfl]
  | succ k ih =>
    have hpt : ∀ y, y < 2 ^ 32 →
        applyM ((List.range 32).map (fun j => powF (2 ^ k) (2 ^ j))) y = powF (2 ^ k) y :=
      fun y hy => applyM_cols32 _ (powF_xor (2 ^ k)) (powF_zero_val (2 ^ k)) y hy
    show sqCols (powFCols k) = _
    unfold sqCols
    rw [ih, List.map_map]
    refine List.map_congr_left fun j hj => ?_
    have hj32 : (2 : Nat) ^ j < 2 ^ 32 :=
      Nat.pow_lt_pow_right (by norm_num) (List.mem_range.mp hj)
    simp only [Function.comp_apply]
    rw [hpt _ (powF_lt _ hj32), ← powF_add, ← two_mul, pow_succ, mul_comm]

/-- `sumFCols k` really is the matrix of `I ⊕ F ⊕ … ⊕ F^(2^k - 1)`. -/
lemma sumFCols_eq (k : Nat) :
    sumFCols k = (List.range 32).map (fun j => sumF (2 ^ k) (2 ^ j)) := by
  induction k with
  | zero =>
    simp only [sumFCols, idCols, pow_zero]
    exact List.map_congr_left fun j _ => by rw [sumF_one]
  | succ k ih =>
    have hpt : ∀ y, y < 2 ^ 32 → applyM (powFCols k) y = powF (2 ^ k) y := fun y hy => by
      rw [powFCols_eq]
      exact applyM_cols32 _ (powF_xor (2 ^ k)) (powF_zero_val (2 ^ k)) y hy
    show (sumFCols k).map _ = _
    rw [ih, List.map_map]
    refine List.map_congr_left fun j hj => ?_
    have hj32 : (2 : Nat) ^ j < 2 ^ 32 :=
      Nat.pow_lt_pow_right (by norm_num) (List.mem_range.mp hj)
    show sumF (2 ^ k) (2 ^ j) ^^^ applyM (powFCols k) (sumF (2 ^ k) (2 ^ j))
        = sumF (2 ^ (k + 1)) (2 ^ j)
    rw [hpt _ (sumF_lt _ hj32), ← sumF_double]
    congr 1
    rw [pow_succ, mul_comm]

lemma powF_succ (n x : Nat) : powF (n + 1) x = powF n (crcSteps 8 x) :=
  Function.iterate_succ_apply _ _ _

lemma sumF_zero_val (n : Nat) : sumF n 0 = 0 := by
  induction n with
  | zero => rfl
  | succ n ih => rw [sumF, ih, powF_zero_val, Nat.xor_zero]

/-- Folding `n` copies of one byte into the CRC accumulator is an affine
GF(2) map of the starting accumulator. -/
lemma foldl_crcByte_replicate (n b c : Nat) :
    List.foldl crcByte c (List.replicate n b) = powF n c ^^^ sumF n (crcSteps 8 (b % 256)) := by
  induction n generalizing c with
  | zero => simp [powF, sumF]
  | succ n ih =>
    rw [List.replicate_succ, List.foldl_cons, ih]
    have hc : crcByte c b = crcSteps 8 c ^^^ crcSteps 8 (b % 256) := by
      rw [crcByte, crcSteps_xor]
    rw [hc, powF_xor, ← powF_succ, Nat.xor_assoc,
      Nat.xor_comm (powF n (crcSteps 8 (b % 256))) (sumF n (crcSteps 8 (b % 256))),
      show sumF (n + 1) (crcSteps 8 (b % 256))
          = sumF n (crcSteps 8 (b % 256)) ^^^ powF n (crcSteps 8 (b % 256)) from rfl]

/-- The digest of 4096 equal bytes, via the repeated-squaring matrices. -/
lemma crc32Update_replicate_4096 (b : Nat) (hb : b < 256) :
    crc32Update 0 (List.replicate 4096 b) =
      (applyM (powFCols 12) 0xFFFFFFFF ^^^ applyM (sumFCols 12) (crcSteps 8 b))
        ^^^ 0xFFFFFFFF := by
  have h12 : (4096 : Nat) = 2 ^ 12 := by norm_num
  rw [crc32Update, foldl_crcByte_replicate, Nat.mod_eq_of_lt hb, Nat.zero_xor, h12,
    ← applyM_cols32 (powF (2 ^ 12)) (powF_xor _) (powF_zero_val _) 0xFFFFFFFF (by norm_num),
    ← applyM_cols32 (sumF (2 ^ 12)) (sumF_xor _) (sumF_zero_val _) (crcSteps 8 b)
      (crcSteps_lt 8 (lt_trans hb (by norm_num))),
    ← powFCols_eq, ← sumFCols_eq]

set_option maxRecDepth 100000 in
lemma powA_val : applyM (powFCols 12) 0xFFFFFFFF = 954466286 := by decide

set_option maxRecDepth 100000 in
lemma sumFCols_12_val :
    sumFCols 12 = [2803715354, 2504760437, 4058398379, 951941911, 1903883822, 3807767644,
      513466105, 1026932210, 2053864420, 4107728840, 853338577, 1706677154, 3413354308,
      1301694665, 2603389330, 3978831205, 18959499, 37918998, 75837996, 151675992, 303351984,
      606703968, 1213407936, 2426815872, 4198337857, 789191875, 1578383750, 3156767500,
      2736906329, 2637350643, 3776220071, 425201935] := by decide

set_option maxRecDepth 100000 in
lemma collision_bound : ∀ b, b < 256 →
    4096 ≤ ((954466286 ^^^
      applyM [2803715354, 2504760437, 4058398379, 951941911, 1903883822, 3807767644,
        513466105, 1026932210, 2053864420, 4107728840, 853338577, 1706677154, 3413354308,
        1301694665, 2603389330, 3978831205, 18959499, 37918998, 75837996, 151675992, 303351984,
        606703968, 1213407936, 2426815872, 4198337857, 789191875, 1578383750, 3156767500,
        2736906329, 2637350643, 3776220071, 425201935] (crcSteps 8 b))
      ^^^ 0xFFFFFFFF) % MaxSeekSize := by
  decide

/-- The low 26 bits of the one-block digest always jump past 4096 bytes. -/
lemma crc32_replicate_seek_overshoot (b : Nat) (hb : b < 256) :
    4096 ≤ crc32Update 0 (List.replicate 4096 b) % MaxSeekSize := by
  rw [crc32Update_replicate_4096 b hb, powA_val, sumFCols_12_val]
  exact collision_bound b hb

lemma hashReaderAux_succ (fuel : Nat) (data : List Nat) (pos digest : Nat) :
    hashReaderAux (fuel + 1) data pos digest =
      if ((data.drop pos).take BufferSize).length = 0 then digest
      else
        hashReaderAux fuel data
          (pos + ((data.drop pos).take BufferSize).length +
            crc32Update digest ((data.drop pos).take BufferSize) % MaxSeekSize)
          (crc32Update digest ((data.drop pos).take BufferSize)) := rfl

/-- Once the position is past the end of the data, the digest is returned. -/
lemma hashReaderAux_past_end (fuel : Nat) (data : List Nat) (pos digest : Nat)
    (h : data.length ≤ pos) : hashReaderAux fuel data pos digest = digest := by
  cases fuel with
  | zero => rfl
  | succ fuel =>
    rw [hashReaderAux_succ, List.drop_eq_nil_of_le h]
    simp

/-- A 4096-byte file is hashed in a single block. -/
lemma hashReader_replicate_4096 (b : Nat) :
    hashReader (List.replicate 4096 b) = crc32Update 0 (List.replicate 4096 b) := by
  have hchunk : ((List.replicate 4096 b).drop 0).take BufferSize = List.replicate 4096 b := by
    rw [List.drop_zero, List.take_replicate]
    norm_num [BufferSize]
  rw [hashReader, List.length_replicate, hashReaderAux_succ, hchunk,
    if_neg (by rw [List.length_replicate]; norm_num)]
  exact hashReaderAux_past_end _ _ _ _ (by rw [List.length_replicate]; omega)

/-- When the first seek overshoots, an 8192-byte file of the same repeated
byte yields the digest of its first block. -/
lemma hashReader_replicate_8192 (b : Nat)
    (h : 4096 ≤ crc32Update 0 (List.replicate 4096 b) % MaxSeekSize) :
    hashReader (List.replicate 8192 b) = crc32Update 0 (List.replicate 4096 b) := by
  have hchunk : ((List.replicate 8192 b).drop 0).take BufferSize = List.replicate 4096 b := by
    rw [List.drop_zero, List.take_replicate]
    norm_num [BufferSize]
  rw [hashReader, List.length_replicate, hashReaderAux_succ, hchunk,
    if_neg (by rw [List.length_replicate]; norm_num)]
  refine hashReaderAux_past_end _ _ _ _ ?_
  rw [List.length_replicate, List.length_replicate]
  omega

/- Validation against the Go unit tests: `hashReader` of `"Hello, World!"`
and of 4096 copies of `'x'` (byte 120) match `TestHashFile`. -/
set_option maxRecDepth 40000 in
example : hashReader ("Hello, World!".data.map Char.toNat) = 3964322768 := by decide

example : hashReader (List.replicate 4096 120) = 1041266625 := by
  rw [hashReader_replicate_4096, crc32Update_replicate_4096 120 (by norm_num), powA_val,
    sumFCols_12_val]
  decide

/-- C7: the fingerprint of a file of 4096 copies of one repeated byte equals
the fingerprint of a file of 8192 copies of that same byte, and both equal
the digest accumulated from the first 4096-byte block (the seek of
`digest % 64 MiB` jumps past the end of both files, so every subsequent read
returns zero bytes and the accumulated digest is returned). -/
theorem fingerprint_collision_4096_8192 (b : Nat) (hb : b < 256) :
    hashReader (List.replicate 4096 b) = hashReader (List.replicate 8192 b) ∧
    hashReader (List.replicate 4096 b) = crc32Update 0 (List.replicate 4096 b) := by
  have hbound := crc32_replicate_seek_overshoot b hb
  exact ⟨(hashReader_replicate_4096 b).trans (hashReader_replicate_8192 b hbound).symm,
    hashReader_replicate_4096 b⟩

/-- Witness for C7 at the byte `'x'` (120), the byte used by `TestHashFile`. -/
theorem fingerprint_collision_4096_8192_witness :
    (120 : Nat) < 256 ∧
      hashReader (List.replicate 4096 120) = hashReader (List.replicate 8192 120) :=
  ⟨by norm_num, (fingerprint_collision_4096_8192 120 (by norm_num)).1⟩

/-! ### Errors (`database/errors.go`, `utils/sqlite`) -/

inductive DBError where
  | alreadyExists
  | notFound
  | unknownVersion
  | queryReturnedNoRows
  | constraintViolation
  | hashFailure (path : String)
  | notExist (path : String)
deriving Repr, DecidableEq

/-! ### Filesystem model

The filesystem is an association list from paths to byte contents; the file
operations the repository uses (`os.Stat` via `PathExists`, `os.Open` via
`HashFile`, `os.Rename`, `os.Remove`) are modelled over it. -/

abbrev FS : Type := List (String × List Nat)

def FS.lookup (fs : FS) (path : String) : Option (List Nat) := List.lookup path fs

/-- `utils.PathExists`. -/
def PathExists (fs : FS) (path : String) : Bool := (fs.lookup path).isSome

/-- `os.Rename` — fails when the source does not exist; replaces the target. -/
def osRename (fs : FS) (src dst : String) : Except DBError FS :=
  match fs.lookup src with
  | none => .error (.notExist src)
  | some data => .ok (fs.filter (fun kv => kv.1 != src && kv.1 != dst) ++ [(dst, data)])

/-- `os.Remove` — fails when the path does not exist. -/
def osRemove (fs : FS) (path : String) : Except DBError FS :=
  match fs.lookup path with
  | none => .error (.notExist path)
  | some _ => .ok (fs.filter (fun kv => kv.1 != path))

/-- `utils.HashFile` — open then hash; the only failure in this model is a
missing file (the open error). -/
def HashFile (fs : FS) (path : String) : Except DBError Nat :=
  match fs.lookup path with
  | none => .error (.hashFailure path)
  | some data => .ok (hashReader data)

/-! ### Data model (`value.Entry`, the `library` and `jobs` tables) -/

/-- `value.Entry` — `ID`, `Path`, `Discovered`, `Transcoded *int64`, `Hash`. -/
structure Entry where
  id : Nat
  path : String
  discovered : Int
  transcoded : Option Int
  hash : Nat
deriving Repr, DecidableEq

/-- A row of the `jobs` table: `id`, `library_id` (unique, foreign key into
`library`), `start_time`. -/
structure Job where
  id : Nat
  libraryId : Nat
  startTime : Int
deriving Repr, DecidableEq

/-- The SQLite store: both tables plus the autoincrement counters for their
primary keys. -/
structure Store where
  library : List Entry
  jobs : List Job
  nextLibraryId : Nat
  nextJobId : Nat
deriving Repr, DecidableEq

namespace Database

/-- `Create` — a fresh store with both tables empty.  (The AlreadyExists
check concerns the path on disk, outside the store model.) -/
def create : Store := ⟨[], [], 1, 1⟩

/-- `addJob` — `insert into jobs (library_id, start_time) values (?, ?)`;
the `library_id` column is `unique` and a foreign key into `library`. -/
def addJob (s : Store) (entryId : Nat) (now : Int) : Except DBError Store :=
  if s.jobs.any (fun j => j.libraryId == entryId) then .error .constraintViolation
  else if !(s.library.any (fun r => r.id == entryId)) then .error .constraintViolation
  else .ok { s with
    jobs := s.jobs ++ [{ id := s.nextJobId, libraryId := entryId, startTime := now }],
    nextJobId := s.nextJobId + 1 }

/-- `removeJob` — `delete from jobs where library_id = ?`. -/
def removeJob (s : Store) (entryId : Nat) : Store :=
  { s with jobs := s.jobs.filter (fun j => j.libraryId != entryId) }

/-- `Upsert` — `insert or replace into library (path, discovered, transcoded,
hash) values (?, ?, ?, ?) on conflict(hash) do update set path=excluded.path
where path != excluded.path`.  On a `hash` conflict the upsert clause updates
only the path, and only when it differs (erroring when the new path collides
with a different row).  Any other uniqueness conflict is resolved by
`REPLACE`: the conflicting row is deleted (a foreign-key violation when a job
still references it) and the incoming row inserted under a fresh id. -/
def Upsert (s : Store) (e : Entry) : Except DBError Store :=
  match s.library.find? (fun r => r.hash == e.hash) with
  | some r =>
    if r.path == e.path then .ok s
    else if s.library.any (fun r2 => r2.id != r.id && r2.path == e.path) then
      .error .constraintViolation
    else
      .ok { s with library :=
        s.library.map (fun r2 => if r2.id == r.id then { r2 with path := e.path } else r2) }
  | none =>
    if s.jobs.any (fun j => s.library.any (fun r => r.path == e.path && r.id == j.libraryId)) then
      .error .constraintViolation
    else
      .ok { s with
        library := s.library.filter (fun r => r.path != e.path) ++
          [{ id := s.nextLibraryId, path := e.path, discovered := e.discovered,
             transcoded := e.transcoded, hash := e.hash }],
        nextLibraryId := s.nextLibraryId + 1 }

/-- `Remove` — delete the entry's job, then the entry row, in one
transaction. -/
def Remove (s : Store) (e : Entry) : Except DBError Store :=
  let s1 := removeJob s e.id
  .ok { s1 with library := s1.library.filter (fun r => r.id != e.id) }

/-- The `where` clause of the `BeginTranscoding` selection: `transcoded is
null and id not in (select library_id from jobs)`. -/
def eligible (s : Store) (r : Entry) : Bool :=
  r.transcoded == none && !(s.jobs.any (fun j => j.libraryId == r.id))

/-- `order by discovered asc limit 1`: keep the first row with the smallest
discovery time. -/
def pickOldest (acc : Option Entry) (r : Entry) : Option Entry :=
  match acc with
  | none => some r
  | some m => if r.discovered < m.discovered then some r else acc

/-- The `BeginTranscoding` selection: `select library.id, path, hash from
library where transcoded is null and id not in (select library_id from jobs)
order by discovered asc limit 1`. -/
def selectOldest (s : Store) : Option Entry :=
  (s.library.filter (eligible s)).foldl pickOldest none

/-- `BeginTranscoding` — select the oldest eligible entry and insert a job
for it; only the `id`, `path` and `hash` columns are scanned into the
returned entry. -/
def BeginTranscoding (s : Store) (now : Int) : Except DBError (Entry × Store) :=
  match selectOldest s with
  | none => .error .queryReturnedNoRows
  | some r =>
    (addJob s r.id now).map (fun s1 => (⟨r.id, r.path, 0, none, r.hash⟩, s1))

/-- `CompleteTranscoding` — rehash the (possibly renamed) final path before
the transaction, then `update library set path = ?, transcoded = ?, hash = ?
where id = ?` and delete the job. -/
def CompleteTranscoding (fs : FS) (s : Store) (e : Entry) (now : Int) : Except DBError Store :=
  match HashFile fs e.path with
  | .error err => .error err
  | .ok h =>
    if s.library.any (fun r => r.id == e.id) &&
        s.library.any (fun r2 => r2.id != e.id && (r2.path == e.path || r2.hash == h)) then
      .error .constraintViolation
    else
      .ok (removeJob
        { s with library := s.library.map (fun r =>
            if r.id == e.id then { r with path := e.path, transcoded := some now, hash := h }
            else r) }
        e.id)

/-- `CancelTranscoding` (and the internal `cancelTranscoding`) — delete the
entry's job without marking completion. -/
def CancelTranscoding (s : Store) (e : Entry) : Except DBError Store :=
  .ok (removeJob s e.id)

/-- The recovery scan's join: `select library.id, path, discovered,
transcoded, hash from jobs inner join library on jobs.library_id =
library.id`. -/
def joinRows (s : Store) : List Entry :=
  s.jobs.filterMap (fun j => s.library.find? (fun r => r.id == j.libraryId))

/-- The tolerated rename of `completeIncompleteJob`: a failed rename is
ignored when the source is missing (`os.IsNotExist`), which is the only
rename failure in this model. -/
def renameTolerant (fs : FS) (src dst : String) : FS :=
  match osRename fs src dst with
  | .ok fs1 => fs1
  | .error _ => fs

/-- The tolerated removal of `rollbackIncompleteJob`: a failed removal is
ignored when the path is missing (`os.IsNotExist`), which is the only
removal failure in this model. -/
def removeTolerant (fs : FS) (path : String) : FS :=
  match osRemove fs path with
  | .ok fs1 => fs1
  | .error _ => fs

/-- `completeIncompleteJob` — rename the intermediate artifact to the final
name (a missing intermediate is tolerated as already renamed), then
`CompleteTranscoding` at the final name. -/
def completeIncompleteJob (now : Int) (fs : FS) (s : Store) (e : Entry) :
    Except DBError (FS × Store) :=
  let dst := ReplaceExtension e.path TargetExtension
  let fs1 := renameTolerant fs (ReplaceExtension e.path TranscodingExtension) dst
  (CompleteTranscoding fs1 s { e with path := dst } now).map (fun s1 => (fs1, s1))

/-- `rollbackIncompleteJob` — remove any stray intermediate artifact (its
absence tolerated) and cancel the job.  The source spells the artifact path
as `strings.TrimSuffix(path, filepath.Ext(path)) + TranscodingExtension`,
the definition of `ReplaceExtension`. -/
def rollbackIncompleteJob (fs : FS) (s : Store) (e : Entry) : Except DBError (FS × Store) :=
  let fs1 := removeTolerant fs (ReplaceExtension e.path TranscodingExtension)
  (CancelTranscoding s e).map (fun s1 => (fs1, s1))

/-- The classification test of `recoverIncompleteJobs`: rehash succeeded with
a different fingerprint, or the source is gone while the intermediate
artifact exists. -/
def shouldCompleteJob (fs : FS) (e : Entry) : Bool :=
  (match HashFile fs e.path with
    | .ok h => h != e.hash
    | .error _ => false)
  || (!PathExists fs e.path && PathExists fs (ReplaceExtension e.path TranscodingExtension))

/-- One row of the recovery scan. -/
def processIncompleteJob (now : Int) (st : FS × Store) (e : Entry) :
    Except DBError (FS × Store) :=
  if shouldCompleteJob st.1 e then completeIncompleteJob now st.1 st.2 e
  else rollbackIncompleteJob st.1 st.2 e

/-- `recoverIncompleteJobs` — classify and resolve every open job row found
by the join (an empty scan is tolerated). -/
def recoverIncompleteJobs (now : Int) (fs : FS) (s : Store) : Except DBError (FS × Store) :=
  (joinRows s).foldlM (processIncompleteJob now) (fs, s)

end Database

/-! ### Worker pool (`cmd/pool.go`) -/

/-- The observable state of a `Pool` at the moment `Stop` runs, after
`close(entryStream)` and `wg.Wait()`: the errors workers reported, in channel
order, and the items still unconsumed in the entry queue. -/
structure PoolState where
  errors : List DBError
  queued : List Entry
deriving Repr, DecidableEq

/-- `cancelTranscoding` in `cmd/utils.go` — the transform-mode drain
operation, `db.CancelTranscoding`. -/
def transcodeDrain (s : Store) (e : Entry) : Except DBError Store :=
  Database.CancelTranscoding s e

/-- `Pool.Stop` — after closing the queue and waiting for the workers: if any
worker reported an error, return the first recorded one; otherwise apply the
drain operation to every unconsumed item, stopping at the first failure. -/
def poolStop (drain : Store → Entry → Except DBError Store) (p : PoolState) (s : Store) :
    Except DBError Store :=
  match p.errors with
  | err :: _ => .error err
  | [] => p.queued.foldlM (fun acc e => drain acc e) s

/-- Transaction semantics of `wrapTransaction`: a failed operation is rolled
back, so the caller's store is unchanged on an error. -/
def runTxn (op : Store → Except DBError Store) (s : Store) : Store :=
  match op s with
  | .ok s1 => s1
  | .error _ => s

/-- The `jobs` table's uniqueness constraint on `library_id`: each entry has
at most one open job. -/
def JobsUnique (s : Store) : Prop := (s.jobs.map (fun j => j.libraryId)).Nodup

/-! ### Selection lemmas for `BeginTranscoding` -/

namespace Database

lemma foldl_pickOldest_mem (l : List Entry) : ∀ (acc : Option Entry) (r : Entry),
    l.foldl pickOldest acc = some r → r ∈ l ∨ acc = some r := by
  induction l with
  | nil => exact fun acc r h => Or.inr h
  | cons a t ih =>
    intro acc r h
    rcases ih (pickOldest acc a) r h with hmem | hacc
    · exact Or.inl (List.mem_cons_of_mem a hmem)
    · cases acc with
      | none =>
        injection hacc with h1
        exact Or.inl (h1 ▸ List.mem_cons_self a t)
      | some m =>
        by_cases hlt : a.discovered < m.discovered
        · rw [pickOldest, if_pos hlt] at hacc
          injection hacc with h1
          exact Or.inl (h1 ▸ List.mem_cons_self a t)
        · rw [pickOldest, if_neg hlt] at hacc
          exact Or.inr hacc

lemma foldl_pickOldest_le (l : List Entry) : ∀ (acc : Option Entry) (r : Entry),
    l.foldl pickOldest acc = some r →
      (∀ r2 ∈ l, r.discovered ≤ r2.discovered) ∧
      (∀ m, acc = some m → r.discovered ≤ m.discovered) := by
  induction l with
  | nil =>
    intro acc r h
    simp only [List.foldl_nil] at h
    refine ⟨fun r2 h2 => absurd h2 (List.not_mem_nil r2), fun m hm => ?_⟩
    rw [hm] at h
    injection h with h1
    subst h1
    exact le_refl _
  | cons a t ih =>
    intro acc r h
    obtain ⟨ht, hacc⟩ := ih (pickOldest acc a) r h
    constructor
    · intro r2 h2
      rcases List.mem_cons.mp h2 with rfl | h2
      · cases acc with
        | none => exact hacc r2 rfl
        | some m =>
          by_cases hlt : r2.discovered < m.discovered
          · exact hacc r2 (by rw [pickOldest, if_pos hlt])
          · have hm := hacc m (by rw [pickOldest, if_neg hlt])
            omega
      · exact ht r2 h2
    · intro m hm
      cases acc with
      | none => exact absurd hm (by simp)
      | some m2 =>
        injection hm with h1
        rw [← h1]
        by_cases hlt : a.discovered < m2.discovered
        · have ha := hacc a (by rw [pickOldest, if_pos hlt])
          omega
        · exact hacc m2 (by rw [pickOldest, if_neg hlt])

lemma selectOldest_some (s : Store) (r : Entry) (h : selectOldest s = some r) :
    r ∈ s.library ∧ eligible s r = true ∧
      ∀ r2 ∈ s.library, eligible s r2 = true → r.discovered ≤ r2.discovered := by
  unfold selectOldest at h
  rcases foldl_pickOldest_mem _ _ _ h with hmem | hacc
  · have hf := List.mem_filter.mp hmem
    refine ⟨hf.1, hf.2, fun r2 h2 he2 => ?_⟩
    exact (foldl_pickOldest_le _ _ _ h).1 r2 (List.mem_filter.mpr ⟨h2, he2⟩)
  · exact absurd hacc (by simp)

lemma selectOldest_eq_none (s : Store) (h : ∀ r ∈ s.library, eligible s r = false) :
    selectOldest s = none := by
  unfold selectOldest
  rw [List.filter_eq_nil_iff.mpr fun a ha => by simp [h a ha]]
  rfl

lemma eligible_no_job {s : Store} {r : Entry} (h : eligible s r = true) :
    s.jobs.any (fun j => j.libraryId == r.id) = false := by
  unfold eligible at h
  simp only [Bool.and_eq_true, Bool.not_eq_true'] at h
  exact h.2

/-- When the selection finds a row, `BeginTranscoding` commits a job for it
and returns the scanned columns. -/
lemma BeginTranscoding_some (s : Store) (now : Int) (r : Entry)
    (heq : selectOldest s = some r) :
    BeginTranscoding s now
      = .ok ({ id := r.id, path := r.path, discovered := 0, transcoded := none,
               hash := r.hash },
          { s with
            jobs := s.jobs ++ [{ id := s.nextJobId, libraryId := r.id, startTime := now }],
            nextJobId := s.nextJobId + 1 }) := by
  obtain ⟨hmem, helig, -⟩ := selectOldest_some s r heq
  have hjob := eligible_no_job helig
  have hlib : s.library.any (fun rr => rr.id == r.id) = true :=
    List.any_eq_true.mpr ⟨r, hmem, by simp⟩
  unfold BeginTranscoding
  rw [heq]
  simp [addJob, hjob, hlib, Except.map]

/-- Inversion: a successful `BeginTranscoding` comes from a selected row. -/
lemma BeginTranscoding_ok {s : Store} {now : Int} {e : Entry} {s1 : Store}
    (h : BeginTranscoding s now = .ok (e, s1)) :
    ∃ r, selectOldest s = some r ∧
      e = { id := r.id, path := r.path, discovered := 0, transcoded := none, hash := r.hash } ∧
      s1 = { s with
        jobs := s.jobs ++ [{ id := s.nextJobId, libraryId := r.id, startTime := now }],
        nextJobId := s.nextJobId + 1 } := by
  cases heq : selectOldest s with
  | none => rw [BeginTranscoding, heq] at h; exact absurd h (by simp)
  | some r =>
    rw [BeginTranscoding_some s now r heq] at h
    refine ⟨r, rfl, ?_, ?_⟩
    · exact (congrArg Prod.fst (Except.ok.inj h)).symm
    · exact (congrArg Prod.snd (Except.ok.inj h)).symm

/-- `BeginTranscoding` only fails with the no-eligible-work condition. -/
lemma BeginTranscoding_error {s : Store} {now : Int} {err : DBError}
    (h : BeginTranscoding s now = .error err) : err = .queryReturnedNoRows := by
  cases heq : selectOldest s with
  | none =>
    rw [BeginTranscoding, heq] at h
    exact (Except.error.inj h).symm
  | some r =>
    rw [BeginTranscoding_some s now r heq] at h
    exact absurd h (by simp)

end Database

/-- C3: `BeginTranscoding` selects, among the entries with no completion
timestamp and no open job, one with the smallest discovery time, inserts a
job row referencing it, and returns it (scanning only the id, path and hash
columns); when no eligible entry exists it fails with
`ErrQueryReturnedNoRows`, the transaction rolling back so the store is
unchanged.  In particular, on a store holding pending entries discovered at
times 32 (hash 64) and 8 (hash 16), it returns the time-8 entry and records
a job for it. -/
theorem beginTranscoding_spec :
    (∀ (s : Store) (now : Int) (e : Entry) (s1 : Store),
      Database.BeginTranscoding s now = .ok (e, s1) →
        ∃ r, r ∈ s.library ∧ Database.eligible s r = true ∧
          (∀ r2 ∈ s.library, Database.eligible s r2 = true → r.discovered ≤ r2.discovered) ∧
          e = { id := r.id, path := r.path, discovered := 0, transcoded := none,
                hash := r.hash } ∧
          s1 = { s with
            jobs := s.jobs ++ [{ id := s.nextJobId, libraryId := r.id, startTime := now }],
            nextJobId := s.nextJobId + 1 }) ∧
    (∀ (s : Store) (now : Int), (∀ r ∈ s.library, Database.eligible s r = false) →
      Database.BeginTranscoding s now = .error .queryReturnedNoRows) ∧
    (Database.BeginTranscoding
        { library := [{ id := 1, path := "test.avi", discovered := 32, transcoded := none,
                        hash := 64 },
                      { id := 2, path := "test.mp4", discovered := 8, transcoded := none,
                        hash := 16 }],
          jobs := [], nextLibraryId := 3, nextJobId := 1 } 100
      = .ok ({ id := 2, path := "test.mp4", discovered := 0, transcoded := none, hash := 16 },
          { library := [{ id := 1, path := "test.avi", discovered := 32, transcoded := none,
                          hash := 64 },
                        { id := 2, path := "test.mp4", discovered := 8, transcoded := none,
                          hash := 16 }],
            jobs := [{ id := 1, libraryId := 2, startTime := 100 }],
            nextLibraryId := 3, nextJobId := 2 })) := by
  refine ⟨?_, ?_, by rfl⟩
  · intro s now e s1 h
    obtain ⟨r, heq, he, hs⟩ := Database.BeginTranscoding_ok h
    obtain ⟨hmem, helig, hmin⟩ := Database.selectOldest_some s r heq
    exact ⟨r, hmem, helig, hmin, he, hs⟩
  · intro s now h
    unfold Database.BeginTranscoding
    rw [Database.selectOldest_eq_none s h]

/-- Witness for C3: on a freshly created store nothing is eligible, so
`BeginTranscoding` reports no eligible work. -/
theorem beginTranscoding_spec_witness :
    Database.BeginTranscoding Database.create 5 = .error .queryReturnedNoRows :=
  beginTranscoding_spec.2.1 Database.create 5 (fun r hr => absurd hr (List.not_mem_nil r))

/-! ### Effect of each operation on the `jobs` table -/

lemma except_map_ok {α β γ : Type} {f : α → β} {x : Except γ α} {y : β}
    (h : x.map f = .ok y) : ∃ a, x = .ok a ∧ f a = y := by
  cases x with
  | error e => exact absurd h (by simp [Except.map])
  | ok a => exact ⟨a, rfl, by simpa [Except.map] using h⟩

namespace Database

lemma Upsert_jobs {s s1 : Store} {e : Entry} (h : Upsert s e = .ok s1) : s1.jobs = s.jobs := by
  cases hf : s.library.find? (fun r => r.hash == e.hash) with
  | some r =>
    simp only [Upsert, hf] at h
    split at h
    · rw [← Except.ok.inj h]
    · split at h
      · exact absurd h (by simp)
      · rw [← Except.ok.inj h]
  | none =>
    simp only [Upsert, hf] at h
    split at h
    · exact absurd h (by simp)
    · rw [← Except.ok.inj h]

lemma Remove_jobs {s s1 : Store} {e : Entry} (h : Remove s e = .ok s1) :
    s1.jobs = s.jobs.filter (fun j => j.libraryId != e.id) := by
  unfold Remove at h
  rw [← Except.ok.inj h]
  rfl

lemma CancelTranscoding_jobs {s s1 : Store} {e : Entry} (h : CancelTranscoding s e = .ok s1) :
    s1.jobs = s.jobs.filter (fun j => j.libraryId != e.id) := by
  unfold CancelTranscoding at h
  rw [← Except.ok.inj h]
  rfl

lemma CompleteTranscoding_jobs {fs : FS} {s s1 : Store} {e : Entry} {now : Int}
    (h : CompleteTranscoding fs s e now = .ok s1) :
    s1.jobs = s.jobs.filter (fun j => j.libraryId != e.id) := by
  cases hh : HashFile fs e.path with
  | error err => simp only [CompleteTranscoding, hh] at h; exact absurd h (by simp)
  | ok hsh =>
    simp only [CompleteTranscoding, hh] at h
    split at h
    · exact absurd h (by simp)
    · rw [← Except.ok.inj h]
      rfl

lemma completeIncompleteJob_jobs {now : Int} {fs fs1 : FS} {s s1 : Store} {e : Entry}
    (h : completeIncompleteJob now fs s e = .ok (fs1, s1)) :
    s1.jobs = s.jobs.filter (fun j => j.libraryId != e.id) := by
  unfold completeIncompleteJob at h
  obtain ⟨s2, hc, hpair⟩ := except_map_ok h
  have hj := CompleteTranscoding_jobs hc
  injection hpair with h1 h2
  rw [← h2]
  exact hj

lemma rollbackIncompleteJob_jobs {fs fs1 : FS} {s s1 : Store} {e : Entry}
    (h : rollbackIncompleteJob fs s e = .ok (fs1, s1)) :
    s1.jobs = s.jobs.filter (fun j => j.libraryId != e.id) := by
  unfold rollbackIncompleteJob at h
  obtain ⟨s2, hc, hpair⟩ := except_map_ok h
  have hj := CancelTranscoding_jobs hc
  injection hpair with h1 h2
  rw [← h2]
  exact hj

lemma processIncompleteJob_jobs {now : Int} {st : FS × Store} {e : Entry} {fs1 : FS} {s1 : Store}
    (h : processIncompleteJob now st e = .ok (fs1, s1)) :
    s1.jobs = st.2.jobs.filter (fun j => j.libraryId != e.id) := by
  unfold processIncompleteJob at h
  split at h
  · exact completeIncompleteJob_jobs h
  · exact rollbackIncompleteJob_jobs h

end Database

/-! ### The at-most-one-job-per-entry invariant (C2) -/

/-- Store states reachable through the public repository operations. -/
inductive Reachable : Store → Prop where
  | create : Reachable Database.create
  | upsert {s s1 : Store} {e : Entry} :
      Reachable s → Database.Upsert s e = .ok s1 → Reachable s1
  | remove {s s1 : Store} {e : Entry} :
      Reachable s → Database.Remove s e = .ok s1 → Reachable s1
  | beginT {s s1 : Store} {now : Int} {e : Entry} :
      Reachable s → Database.BeginTranscoding s now = .ok (e, s1) → Reachable s1
  | complete {fs : FS} {s s1 : Store} {e : Entry} {now : Int} :
      Reachable s → Database.CompleteTranscoding fs s e now = .ok s1 → Reachable s1
  | cancel {s s1 : Store} {e : Entry} :
      Reachable s → Database.CancelTranscoding s e = .ok s1 → Reachable s1
  | recover {now : Int} {fs fs1 : FS} {s s1 : Store} :
      Reachable s → Database.recoverIncompleteJobs now fs s = .ok (fs1, s1) → Reachable s1

lemma jobsUnique_of_filter {s s1 : Store} (p : Job → Bool)
    (h : s1.jobs = s.jobs.filter p) (hu : JobsUnique s) : JobsUnique s1 := by
  unfold JobsUnique at hu ⊢
  rw [h]
  exact hu.sublist ((List.filter_sublist _).map _)

lemma beginTranscoding_preserves_unique {s s1 : Store} {now : Int} {e : Entry}
    (h : Database.BeginTranscoding s now = .ok (e, s1)) (hu : JobsUnique s) : JobsUnique s1 := by
  obtain ⟨r, heq, -, hs⟩ := Database.BeginTranscoding_ok h
  obtain ⟨-, helig, -⟩ := Database.selectOldest_some s r heq
  have hnone := Database.eligible_no_job helig
  have hnotmem : r.id ∉ s.jobs.map (fun j => j.libraryId) := by
    intro hmem
    obtain ⟨j, hj, hjid⟩ := List.mem_map.mp hmem
    have := List.any_eq_false.mp hnone j hj
    simp [hjid] at this
  unfold JobsUnique at hu ⊢
  rw [hs]
  simp only [List.map_append, List.map_cons, List.map_nil]
  rw [List.nodup_append]
  exact ⟨hu, List.nodup_singleton _, fun a ha hb => by
    rw [List.mem_singleton.mp hb] at ha
    exact hnotmem ha⟩

lemma foldlM_preserves_jobsUnique {α : Type} (step : (FS × Store) → α → Except DBError (FS × Store))
    (hstep : ∀ st a fs1 s1, JobsUnique st.2 → step st a = .ok (fs1, s1) → JobsUnique s1) :
    ∀ (l : List α) (st st1 : FS × Store),
      JobsUnique st.2 → l.foldlM step st = .ok st1 → JobsUnique st1.2 := by
  intro l
  induction l with
  | nil =>
    intro st st1 hP h
    simp only [List.foldlM_nil] at h
    rw [show st1 = st from (Except.ok.inj h).symm]
    exact hP
  | cons a t ih =>
    intro st st1 hP h
    rw [List.foldlM_cons] at h
    cases h0 : step st a with
    | error err => rw [h0] at h; exact Except.noConfusion h
    | ok st2 =>
      rw [h0] at h
      exact ih st2 st1 (hstep st a st2.1 st2.2 hP (by rw [h0])) h

lemma reachable_jobsUnique {s : Store} (h : Reachable s) : JobsUnique s := by
  induction h with
  | create => simp [JobsUnique, Database.create]
  | upsert _ hok ih => unfold JobsUnique; rw [Database.Upsert_jobs hok]; exact ih
  | remove _ hok ih => exact jobsUnique_of_filter _ (Database.Remove_jobs hok) ih
  | beginT _ hok ih => exact beginTranscoding_preserves_unique hok ih
  | complete _ hok ih => exact jobsUnique_of_filter _ (Database.CompleteTranscoding_jobs hok) ih
  | cancel _ hok ih => exact jobsUnique_of_filter _ (Database.CancelTranscoding_jobs hok) ih
  | recover _ hok ih =>
    exact foldlM_preserves_jobsUnique _
      (fun st a fs1 s1 hP hstep =>
        jobsUnique_of_filter _ (Database.processIncompleteJob_jobs hstep) hP)
      _ _ _ ih hok

/-- A successful claim records a job for the returned entry, and never
returns an entry that already has one. -/
lemma beginTranscoding_claims {s s1 : Store} {now : Int} {e : Entry}
    (h : Database.BeginTranscoding s now = .ok (e, s1)) :
    (∀ j ∈ s.jobs, j.libraryId ≠ e.id) ∧ ∃ j ∈ s1.jobs, j.libraryId = e.id := by
  obtain ⟨r, heq, he, hs⟩ := Database.BeginTranscoding_ok h
  obtain ⟨-, helig, -⟩ := Database.selectOldest_some s r heq
  have hnone := Database.eligible_no_job helig
  constructor
  · intro j hj
    have := List.any_eq_false.mp hnone j hj
    rw [he]
    simpa using this
  · refine ⟨{ id := s.nextJobId, libraryId := r.id, startTime := now }, ?_, by rw [he]⟩
    rw [hs]
    exact List.mem_append_right _ (List.mem_singleton.mpr rfl)

/-- C2: in every reachable store state the job table's entry reference is
unique (at most one open job per entry); a successful `BeginTranscoding`
returns an entry with no pre-existing job and records a job for it, so while
that job exists — until completed or cancelled — no further call returns the
same entry, and two successive successful calls return different entries;
the only failure is the no-eligible-work condition. -/
theorem beginTranscoding_exclusive :
    (∀ s : Store, Reachable s → JobsUnique s) ∧
    (∀ (s : Store) (now : Int) (e : Entry) (s1 : Store),
      Database.BeginTranscoding s now = .ok (e, s1) →
        (∀ j ∈ s.jobs, j.libraryId ≠ e.id) ∧ ∃ j ∈ s1.jobs, j.libraryId = e.id) ∧
    (∀ (s : Store) (now1 now2 : Int) (e1 e2 : Entry) (s1 s2 : Store),
      Database.BeginTranscoding s now1 = .ok (e1, s1) →
      Database.BeginTranscoding s1 now2 = .ok (e2, s2) → e2.id ≠ e1.id) ∧
    (∀ (s : Store) (now : Int) (err : DBError),
      Database.BeginTranscoding s now = .error err → err = .queryReturnedNoRows) := by
  refine ⟨fun s h => reachable_jobsUnique h, fun s now e s1 h => beginTranscoding_claims h,
    ?_, fun s now err h => Database.BeginTranscoding_error h⟩
  intro s now1 now2 e1 e2 s1 s2 h1 h2
  obtain ⟨-, j, hj, hjid⟩ := beginTranscoding_claims h1
  have hno := (beginTranscoding_claims h2).1 j hj
  rw [hjid] at hno
  exact fun hcontra => hno hcontra.symm

/-- Witness for C2: on the two-entry store, the first claim takes the
time-8 entry (id 2) and the second claim takes the other entry (id 1). -/
theorem beginTranscoding_exclusive_witness :
    ({ id := 1, path := "test.avi", discovered := 0, transcoded := none, hash := 64 } :
        Entry).id
      ≠ ({ id := 2, path := "test.mp4", discovered := 0, transcoded := none, hash := 16 } :
        Entry).id :=
  beginTranscoding_exclusive.2.2.1
    { library := [{ id := 1, path := "test.avi", discovered := 32, transcoded := none,
                    hash := 64 },
                  { id := 2, path := "test.mp4", discovered := 8, transcoded := none,
                    hash := 16 }],
      jobs := [], nextLibraryId := 3, nextJobId := 1 }
    100 101
    { id := 2, path := "test.mp4", discovered := 0, transcoded := none, hash := 16 }
    { id := 1, path := "test.avi", discovered := 0, transcoded := none, hash := 64 }
    { library := [{ id := 1, path := "test.avi", discovered := 32, transcoded := none,
                    hash := 64 },
                  { id := 2, path := "test.mp4", discovered := 8, transcoded := none,
                    hash := 16 }],
      jobs := [{ id := 1, libraryId := 2, startTime := 100 }],
      nextLibraryId := 3, nextJobId := 2 }
    { library := [{ id := 1, path := "test.avi", discovered := 32, transcoded := none,
                    hash := 64 },
                  { id := 2, path := "test.mp4", discovered := 8, transcoded := none,
                    hash := 16 }],
      jobs := [{ id := 1, libraryId := 2, startTime := 100 },
               { id := 2, libraryId := 1, startTime := 101 }],
      nextLibraryId := 3, nextJobId := 3 }
    (by rfl) (by rfl)

/-! ### `Upsert` lemmas -/

namespace Database

/-- On a fingerprint conflict the upsert clause updates only the path, and
only when it differs. -/
lemma Upsert_hash_conflict {s : Store} {e r : Entry}
    (hf : s.library.find? (fun r2 => r2.hash == e.hash) = some r) :
    (r.path = e.path → Upsert s e = .ok s) ∧
    (r.path ≠ e.path → (∀ r2 ∈ s.library, r2.id ≠ r.id → r2.path ≠ e.path) →
      Upsert s e = .ok { s with library := (s.library.map
        (fun r2 => if r2.id == r.id then { r2 with path := e.path } else r2)) }) := by
  constructor
  · intro hp
    simp only [Upsert, hf]
    rw [if_pos (by simp [hp])]
  · intro hp hnc
    have hany : (s.library.any fun r2 => r2.id != r.id && r2.path == e.path) = false := by
      rw [List.any_eq_false]
      intro r2 h2
      simp only [Bool.and_eq_true, bne_iff_ne, beq_iff_eq, not_and]
      exact fun hid hpath => (hnc r2 h2 hid) hpath
    simp only [Upsert, hf]
    rw [if_neg (by simp [hp]), if_neg (by simp [hany])]

/-- Without a fingerprint conflict, `REPLACE` deletes any row with the
incoming path and inserts the incoming row under a fresh id. -/
lemma Upsert_no_hash_conflict {s : Store} {e : Entry}
    (hf : s.library.find? (fun r => r.hash == e.hash) = none)
    (hfk : ∀ j ∈ s.jobs, ∀ r ∈ s.library, r.path = e.path → r.id ≠ j.libraryId) :
    Upsert s e = .ok { s with
      library := (s.library.filter (fun r => r.path != e.path) ++
        [{ id := s.nextLibraryId, path := e.path, discovered := e.discovered,
           transcoded := e.transcoded, hash := e.hash }]),
      nextLibraryId := s.nextLibraryId + 1 } := by
  have hany : (s.jobs.any fun j =>
      s.library.any fun r => r.path == e.path && r.id == j.libraryId) = false := by
    rw [List.any_eq_false]
    intro j hj
    have hinner : (s.library.any fun r => r.path == e.path && r.id == j.libraryId) = false := by
      rw [List.any_eq_false]
      intro r hr
      simp only [Bool.and_eq_true, beq_iff_eq, not_and]
      exact fun hpath hid => hfk j hj r hr hpath hid
    simp [hinner]
  simp only [Upsert, hf]
  rw [if_neg (by simp [hany])]

/-- After a successful `Upsert` of `e`, upserting `e` again is a no-op. -/
lemma Upsert_stable {s s1 : Store} {e : Entry} (h : Upsert s e = .ok s1) :
    Upsert s1 e = .ok s1 := by
  cases hf : s.library.find? (fun r2 => r2.hash == e.hash) with
  | some r =>
    simp only [Upsert, hf] at h
    by_cases hp : (r.path == e.path) = true
    · rw [if_pos hp] at h
      rw [← Except.ok.inj h]
      simp only [Upsert, hf]
      rw [if_pos hp]
    · rw [if_neg hp] at h
      split at h
      · exact absurd h (by simp)
      · rw [← Except.ok.inj h]
        have hmap : (s.library.map
            (fun r2 => if r2.id == r.id then { r2 with path := e.path } else r2)).find?
              (fun r2 : Entry => r2.hash == e.hash)
            = some { r with path := e.path } := by
          rw [List.find?_map]
          have hcomp : ((fun r2 : Entry => r2.hash == e.hash) ∘
              (fun r2 => if r2.id == r.id then { r2 with path := e.path } else r2))
              = fun r2 : Entry => r2.hash == e.hash := by
            funext r2
            by_cases hid : (r2.id == r.id) = true <;> simp [Function.comp, hid]
          rw [hcomp, hf]
          simp
        simp only [Upsert, hmap]
        rw [if_pos (by simp)]
  | none =>
    simp only [Upsert, hf] at h
    split at h
    · exact absurd h (by simp)
    · rw [← Except.ok.inj h]
      have hnew : (s.library.filter (fun r => r.path != e.path) ++
          [({ id := s.nextLibraryId, path := e.path, discovered := e.discovered,
              transcoded := e.transcoded, hash := e.hash } : Entry)]).find?
            (fun r2 : Entry => r2.hash == e.hash)
          = some { id := s.nextLibraryId, path := e.path, discovered := e.discovered,
                   transcoded := e.transcoded, hash := e.hash } := by
        rw [List.find?_append]
        have h1 : (s.library.filter (fun r => r.path != e.path)).find?
            (fun r2 : Entry => r2.hash == e.hash) = none := by
          rw [List.find?_eq_none]
          intro x hx
          exact List.find?_eq_none.mp hf x (List.mem_of_mem_filter hx)
        rw [h1]
        simp
      simp only [Upsert, hnew]
      rw [if_pos (by simp)]

end Database

/-- C5: upserting `{path := "b.mkv", hash := H}` over a store whose only row
is `{path := "a.mkv", hash := H}` leaves exactly one row, with path
`"b.mkv"`, fingerprint `H`, and the discovery and completion fields that
were stored before the upsert. -/
theorem upsert_rename_detection (i i2 : Nat) (H : Nat) (d d2 : Int) (t t2 : Option Int)
    (js : List Job) (nl nj : Nat) :
    Database.Upsert
        { library := [{ id := i, path := "a.mkv", discovered := d, transcoded := t, hash := H }],
          jobs := js, nextLibraryId := nl, nextJobId := nj }
        { id := i2, path := "b.mkv", discovered := d2, transcoded := t2, hash := H }
      = .ok { library := [{ id := i, path := "b.mkv", discovered := d, transcoded := t,
                            hash := H }],
              jobs := js, nextLibraryId := nl, nextJobId := nj } := by
  have h := (Database.Upsert_hash_conflict
      (s := { library := [{ id := i, path := "a.mkv", discovered := d, transcoded := t,
                            hash := H }],
              jobs := js, nextLibraryId := nl, nextJobId := nj })
      (e := { id := i2, path := "b.mkv", discovered := d2, transcoded := t2, hash := H })
      (r := { id := i, path := "a.mkv", discovered := d, transcoded := t, hash := H })
      (by simp)).2 (by simp) ?_
  · rw [h]
    simp
  · intro r2 h2 hid
    simp only [List.mem_singleton] at h2
    rw [h2] at hid
    exact absurd rfl hid

/-- C4 counterexample: on a fingerprint conflict the incoming discovered and
transcoded values are NOT written — the stored row keeps `discovered = 8`
and `transcoded = some 0` even though the incoming entry carries
`discovered = 9` and `transcoded = none`; only the path is updated. -/
theorem upsert_incoming_fields_counterexample :
    Database.Upsert
        { library := [{ id := 1, path := "a.mkv", discovered := 8, transcoded := some 0,
                        hash := 32 }],
          jobs := [], nextLibraryId := 2, nextJobId := 1 }
        { id := 0, path := "b.mkv", discovered := 9, transcoded := none, hash := 32 }
      = .ok { library := [{ id := 1, path := "b.mkv", discovered := 8, transcoded := some 0,
                            hash := 32 }],
              jobs := [], nextLibraryId := 2, nextJobId := 1 } ∧
    ¬ (Database.Upsert
        { library := [{ id := 1, path := "a.mkv", discovered := 8, transcoded := some 0,
                        hash := 32 }],
          jobs := [], nextLibraryId := 2, nextJobId := 1 }
        { id := 0, path := "b.mkv", discovered := 9, transcoded := none, hash := 32 }
      = .ok { library := [{ id := 1, path := "b.mkv", discovered := 9, transcoded := none,
                            hash := 32 }],
              jobs := [], nextLibraryId := 2, nextJobId := 1 }) := by
  constructor
  · rfl
  · intro hcontra
    have := Except.ok.inj hcontra
    simp at this

/-- C4 (amended): on a fingerprint conflict `Upsert` updates, in a single
transaction, the row's path to the incoming value only if the path differs,
and leaves the row's discovered, transcoded and fingerprint fields
unchanged; the incoming discovered and transcoded values are not written. -/
theorem upsert_fingerprint_merge (s : Store) (e r : Entry)
    (hf : s.library.find? (fun r2 => r2.hash == e.hash) = some r) :
    (r.path = e.path → Database.Upsert s e = .ok s) ∧
    (r.path ≠ e.path → (∀ r2 ∈ s.library, r2.id ≠ r.id → r2.path ≠ e.path) →
      ∃ s1, Database.Upsert s e = .ok s1 ∧
        s1.library = (s.library.map
          (fun r2 => if r2.id == r.id then { r2 with path := e.path } else r2)) ∧
        s1.library.map (fun r2 => (r2.id, r2.discovered, r2.transcoded, r2.hash))
          = s.library.map (fun r2 => (r2.id, r2.discovered, r2.transcoded, r2.hash)) ∧
        s1.jobs = s.jobs) := by
  obtain ⟨h1, h2⟩ := Database.Upsert_hash_conflict hf
  refine ⟨h1, fun hp hnc => ?_⟩
  refine ⟨_, h2 hp hnc, rfl, ?_, rfl⟩
  rw [List.map_map]
  refine List.map_congr_left fun r2 _ => ?_
  by_cases hid : (r2.id == r.id) = true <;> simp [Function.comp, hid]

/-- Witness for C4 (amended), at the rename scenario of
`TestDatabaseUpsertRenameEntry`. -/
theorem upsert_fingerprint_merge_witness :
    ∃ s1, Database.Upsert
        { library := [{ id := 1, path := "a.mkv", discovered := 8, transcoded := some 0,
                        hash := 32 }],
          jobs := [], nextLibraryId := 2, nextJobId := 1 }
        { id := 0, path := "b.mkv", discovered := 9, transcoded := none, hash := 32 }
      = .ok s1 ∧
      s1.library
        = (({ library := [{ id := 1, path := "a.mkv", discovered := 8, transcoded := some 0,
                            hash := 32 }],
              jobs := [], nextLibraryId := 2, nextJobId := 1 } : Store).library.map
            (fun r2 => if r2.id == (1 : Nat) then { r2 with path := "b.mkv" } else r2)) ∧
      s1.library.map (fun r2 => (r2.id, r2.discovered, r2.transcoded, r2.hash))
        = ({ library := [{ id := 1, path := "a.mkv", discovered := 8, transcoded := some 0,
                           hash := 32 }],
             jobs := [], nextLibraryId := 2, nextJobId := 1 } : Store).library.map
            (fun r2 => (r2.id, r2.discovered, r2.transcoded, r2.hash)) ∧
      s1.jobs
        = ({ library := [{ id := 1, path := "a.mkv", discovered := 8, transcoded := some 0,
                           hash := 32 }],
             jobs := [], nextLibraryId := 2, nextJobId := 1 } : Store).jobs :=
  (upsert_fingerprint_merge
    { library := [{ id := 1, path := "a.mkv", discovered := 8, transcoded := some 0,
                    hash := 32 }],
      jobs := [], nextLibraryId := 2, nextJobId := 1 }
    { id := 0, path := "b.mkv", discovered := 9, transcoded := none, hash := 32 }
    { id := 1, path := "a.mkv", discovered := 8, transcoded := some 0, hash := 32 }
    (by rfl)).2 (by decide) (by decide)

/-- C6: `Upsert` is idempotent — upserting the same entry twice yields the
same result (value and store) as upserting it once, and on an empty store
the same entry applied twice leaves exactly one row. -/
theorem upsert_idempotent :
    (∀ (s : Store) (e : Entry),
      (Database.Upsert s e).bind (fun s1 => Database.Upsert s1 e) = Database.Upsert s e) ∧
    (∀ e : Entry, ∃ s1, Database.Upsert Database.create e = .ok s1 ∧
      Database.Upsert s1 e = .ok s1 ∧ s1.library.length = 1) := by
  constructor
  · intro s e
    cases h : Database.Upsert s e with
    | error err => rfl
    | ok s1 =>
      show Database.Upsert s1 e = .ok s1
      exact Database.Upsert_stable h
  · intro e
    have h : Database.Upsert Database.create e
        = .ok { library := [{ id := 1, path := e.path, discovered := e.discovered,
                              transcoded := e.transcoded, hash := e.hash }],
                jobs := [], nextLibraryId := 2, nextJobId := 1 } := rfl
    exact ⟨_, h, Database.Upsert_stable h, rfl⟩

/-- C9: upserting an entry whose path matches an existing row but whose
fingerprint does not replaces that row wholesale under `REPLACE`: the old
row is deleted and a fresh row carries the incoming path, fingerprint,
discovered and transcoded values — so an entry previously marked transcoded
becomes pending again when the incoming entry has no completion
timestamp. -/
theorem upsert_path_conflict_replaces (s : Store) (e : Entry)
    (hf : s.library.find? (fun r => r.hash == e.hash) = none)
    (hfk : ∀ j ∈ s.jobs, ∀ r ∈ s.library, r.path = e.path → r.id ≠ j.libraryId) :
    Database.Upsert s e = .ok { s with
      library := (s.library.filter (fun r => r.path != e.path) ++
        [{ id := s.nextLibraryId, path := e.path, discovered := e.discovered,
           transcoded := e.transcoded, hash := e.hash }]),
      nextLibraryId := s.nextLibraryId + 1 } ∧
    ∀ r ∈ s.library, r.path = e.path →
      r ∉ (s.library.filter (fun r => r.path != e.path) ++
        [({ id := s.nextLibraryId, path := e.path, discovered := e.discovered,
            transcoded := e.transcoded, hash := e.hash } : Entry)]) := by
  refine ⟨Database.Upsert_no_hash_conflict hf hfk, fun r hr hpath hmem => ?_⟩
  rcases List.mem_append.mp hmem with hmem | hmem
  · have := (List.mem_filter.mp hmem).2
    simp [hpath] at this
  · have hne := List.find?_eq_none.mp hf r hr
    rw [List.mem_singleton.mp hmem] at hne
    simp at hne

/-- Witness for C9 at the scenario of `TestDatabaseUpsertHashUpdated`: the
transcoded row `{path := "test.mp4", hash := 32}` is replaced by the pending
incoming row `{path := "test.mp4", hash := 64}`. -/
theorem upsert_path_conflict_replaces_witness :
    Database.Upsert
        { library := [{ id := 1, path := "test.mp4", discovered := 8, transcoded := some 0,
                        hash := 32 }],
          jobs := [], nextLibraryId := 2, nextJobId := 1 }
        { id := 0, path := "test.mp4", discovered := 8, transcoded := none, hash := 64 }
      = .ok { library := [{ id := 2, path := "test.mp4", discovered := 8, transcoded := none,
                            hash := 64 }],
              jobs := [], nextLibraryId := 3, nextJobId := 1 } := by
  have h := (upsert_path_conflict_replaces
    { library := [{ id := 1, path := "test.mp4", discovered := 8, transcoded := some 0,
                    hash := 32 }],
      jobs := [], nextLibraryId := 2, nextJobId := 1 }
    { id := 0, path := "test.mp4", discovered := 8, transcoded := none, hash := 64 }
    (by rfl) (by intro j hj; exact absurd hj (List.not_mem_nil j))).1
  rw [h]
  rfl

/-- C10: when rehashing fails inside `CompleteTranscoding` (the file cannot
be opened), the operation returns the hash error before any transaction is
begun, and under the rollback semantics of `wrapTransaction` the store is
completely unchanged: the entry row keeps its path, fingerprint and
completion timestamp, and the job row survives. -/
theorem completeTranscoding_hash_failure (fs : FS) (s : Store) (e : Entry) (now : Int)
    (h : fs.lookup e.path = none) :
    Database.CompleteTranscoding fs s e now = .error (.hashFailure e.path) ∧
    runTxn (fun s0 => Database.CompleteTranscoding fs s0 e now) s = s := by
  have herr : Database.CompleteTranscoding fs s e now = .error (.hashFailure e.path) := by
    have hh : HashFile fs e.path = .error (.hashFailure e.path) := by
      unfold HashFile
      rw [h]
    simp only [Database.CompleteTranscoding, hh]
  refine ⟨herr, ?_⟩
  unfold runTxn
  simp only [herr]

/-- Witness for C10 on an empty filesystem: the hash of `"gone.mp4"` fails
and the single-row store with its job is untouched. -/
theorem completeTranscoding_hash_failure_witness :
    Database.CompleteTranscoding []
        { library := [{ id := 1, path := "gone.mp4", discovered := 8, transcoded := none,
                        hash := 16 }],
          jobs := [{ id := 1, libraryId := 1, startTime := 4 }],
          nextLibraryId := 2, nextJobId := 2 }
        { id := 1, path := "gone.mp4", discovered := 8, transcoded := none, hash := 16 } 9
      = .error (.hashFailure "gone.mp4") ∧
    runTxn (fun s0 => Database.CompleteTranscoding [] s0
        { id := 1, path := "gone.mp4", discovered := 8, transcoded := none, hash := 16 } 9)
      { library := [{ id := 1, path := "gone.mp4", discovered := 8, transcoded := none,
                      hash := 16 }],
        jobs := [{ id := 1, libraryId := 1, startTime := 4 }],
        nextLibraryId := 2, nextJobId := 2 }
      = { library := [{ id := 1, path := "gone.mp4", discovered := 8, transcoded := none,
                        hash := 16 }],
          jobs := [{ id := 1, libraryId := 1, startTime := 4 }],
          nextLibraryId := 2, nextJobId := 2 } :=
  completeTranscoding_hash_failure []
    { library := [{ id := 1, path := "gone.mp4", discovered := 8, transcoded := none,
                    hash := 16 }],
      jobs := [{ id := 1, libraryId := 1, startTime := 4 }],
      nextLibraryId := 2, nextJobId := 2 }
    { id := 1, path := "gone.mp4", discovered := 8, transcoded := none, hash := 16 } 9
    (by rfl)

/-! ### Pool drain lemmas (C8) -/

/-- Draining a transform-mode queue cancels each queued item's claim. -/
lemma foldlM_transcodeDrain (q : List Entry) : ∀ s : Store,
    q.foldlM (fun acc e => transcodeDrain acc e) s
      = .ok { s with jobs := s.jobs.filter (fun j => q.all (fun e => e.id != j.libraryId)) } := by
  induction q with
  | nil =>
    intro s
    simp only [List.foldlM_nil, List.all_nil, List.filter_true]
    rfl
  | cons e t ih =>
    intro s
    rw [List.foldlM_cons]
    rw [show transcodeDrain s e = .ok (Database.removeJob s e.id) from rfl]
    rw [show ((Except.ok (Database.removeJob s e.id) : Except DBError Store) >>=
        fun acc => t.foldlM (fun acc e => transcodeDrain acc e) acc)
      = t.foldlM (fun acc e => transcodeDrain acc e) (Database.removeJob s e.id) from rfl]
    rw [ih]
    simp only [Database.removeJob, List.filter_filter]
    have hj : List.filter
          (fun a => (t.all fun e2 => e2.id != a.libraryId) && a.libraryId != e.id) s.jobs
        = List.filter (fun j => (e :: t).all fun e2 => e2.id != j.libraryId) s.jobs := by
      refine List.filter_congr fun j _ => ?_
      simp only [List.all_cons]
      by_cases h : e.id = j.libraryId
      · simp [h, Bool.and_comm]
      · have h1 : (j.libraryId != e.id) = true := by simp [Ne.symm h]
        have h2 : (e.id != j.libraryId) = true := by simp [h]
        simp [h1, h2, Bool.and_comm]
    rw [hj]

/-- C8: `Pool.Stop`, after closing the queue and waiting for every worker's
in-flight item: if any worker reported an error it returns the first
recorded error, applying the drain to nothing; otherwise it applies the
drain to every unconsumed item (for a transform-mode pool, cancelling each
item's job) and returns no error when every drain succeeds.  In particular,
stopping a transform-mode pool with one unconsumed item and no worker
failure removes that item's job row, leaves the library untouched (the
entry remains pending), and returns no error. -/
theorem poolStop_spec :
    (∀ (drain : Store → Entry → Except DBError Store) (p : PoolState) (s : Store)
        (err : DBError) (rest : List DBError),
      p.errors = err :: rest → poolStop drain p s = .error err) ∧
    (∀ (p : PoolState) (s : Store), p.errors = [] →
      poolStop transcodeDrain p s
        = .ok { s with
            jobs := s.jobs.filter (fun j => p.queued.all (fun e => e.id != j.libraryId)) }) ∧
    (∀ (drain : Store → Entry → Except DBError Store) (p : PoolState) (s sMid : Store)
        (e : Entry) (q1 q2 : List Entry) (err : DBError),
      p.errors = [] → p.queued = q1 ++ e :: q2 →
      q1.foldlM (fun acc e2 => drain acc e2) s = .ok sMid →
      drain sMid e = .error err →
      poolStop drain p s = .error err) ∧
    (∀ (s : Store) (e : Entry),
      poolStop transcodeDrain { errors := [], queued := [e] } s
        = .ok { s with jobs := s.jobs.filter (fun j => j.libraryId != e.id) }) := by
  refine ⟨?_, ?_, ?_, ?_⟩
  · intro drain p s err rest herr
    unfold poolStop
    rw [herr]
  · intro p s herr
    unfold poolStop
    rw [herr]
    exact foldlM_transcodeDrain p.queued s
  · intro drain p s sMid e q1 q2 err herr hq h1 h2
    unfold poolStop
    rw [herr, hq, List.foldlM_append, h1]
    show (e :: q2).foldlM (fun acc e2 => drain acc e2) sMid = .error err
    rw [List.foldlM_cons, h2]
    rfl
  · intro s e
    unfold poolStop
    rw [show ([e] : List Entry).foldlM (fun acc e => transcodeDrain acc e) s
      = transcodeDrain s e from rfl]
    rw [show transcodeDrain s e = .ok (Database.removeJob s e.id) from rfl]
    rfl

/-! ### Recovery-pass lemmas (C1) -/

lemma lookup_none_keys {fs : FS} {p : String} (h : FS.lookup fs p = none) :
    ∀ kv ∈ fs, (kv.1 == p) = false := by
  unfold FS.lookup at h
  induction fs with
  | nil => intro kv hkv; exact absurd hkv (List.not_mem_nil kv)
  | cons kv2 t ih =>
    obtain ⟨k, v⟩ := kv2
    intro kv hkv
    rw [List.lookup_cons] at h
    cases hk : (p == k) with
    | true => rw [hk] at h; exact absurd h (by simp)
    | false =>
      rw [hk] at h
      rcases List.mem_cons.mp hkv with rfl | hkv2
      · have hne : p ≠ k := by simpa using hk
        simp only [beq_eq_false_iff_ne, ne_eq]
        exact fun hc => hne hc.symm
      · exact ih h kv hkv2

namespace Database

/-- The tolerated removal always ends with the path absent: it is a plain
filter of the filesystem. -/
lemma removeTolerant_eq_filter (fs : FS) (p : String) :
    removeTolerant fs p = fs.filter (fun kv => kv.1 != p) := by
  cases hl : FS.lookup fs p with
  | some d => simp only [removeTolerant, osRemove, hl]
  | none =>
    simp only [removeTolerant, osRemove, hl]
    symm
    rw [List.filter_eq_self]
    intro kv hkv
    have hk := lookup_none_keys hl kv hkv
    simp only [bne_iff_ne, ne_eq]
    intro hcontra
    rw [hcontra] at hk
    simp at hk

end Database

/-- C1: for a store holding one open job row referencing entry `e`, the
recovery pass run by `Open` classifies and resolves it exactly as the code's
condition dictates.  If rehashing the stored path succeeds with a different
fingerprint, or the stored path is gone while the `.transcoding.mp4`
intermediate exists, the intermediate is renamed to the final `.mp4` name (a
missing intermediate tolerated), the entry's path, fingerprint and
completion timestamp are updated exactly as `CompleteTranscoding` updates
them (given that the rehash of the final name succeeds and collides with no
other row), and the job row is deleted.  Otherwise any intermediate artifact
is deleted (absence tolerated) and the job row is deleted without setting
the completion timestamp. -/
theorem recovery_classification (now : Int) (fs : FS) (s : Store) (j : Job) (e : Entry)
    (hjobs : s.jobs = [j])
    (hfind : s.library.find? (fun r => r.id == j.libraryId) = some e) :
    (∀ h : Nat, Database.shouldCompleteJob fs e = true →
      HashFile (Database.renameTolerant fs (ReplaceExtension e.path TranscodingExtension)
          (ReplaceExtension e.path TargetExtension))
        (ReplaceExtension e.path TargetExtension) = .ok h →
      (∀ r2 ∈ s.library, r2.id ≠ e.id →
        r2.path ≠ ReplaceExtension e.path TargetExtension ∧ r2.hash ≠ h) →
      Database.recoverIncompleteJobs now fs s
        = .ok (Database.renameTolerant fs (ReplaceExtension e.path TranscodingExtension)
            (ReplaceExtension e.path TargetExtension),
          { s with
            library := (s.library.map (fun r =>
              if r.id == e.id then
                { r with
                  path := (ReplaceExtension e.path TargetExtension),
                  transcoded := some now,
                  hash := h }
              else r)),
            jobs := [] })) ∧
    (Database.shouldCompleteJob fs e = false →
      Database.recoverIncompleteJobs now fs s
        = .ok (fs.filter (fun kv => kv.1 != ReplaceExtension e.path TranscodingExtension),
          { s with jobs := [] })) := by
  have hje : e.id = j.libraryId := by simpa using List.find?_some hfind
  have hmem : e ∈ s.library := List.mem_of_find?_eq_some hfind
  have hjoin : Database.joinRows s = [e] := by
    unfold Database.joinRows
    rw [hjobs]
    simp [hfind]
  have hrec : Database.recoverIncompleteJobs now fs s
      = Database.processIncompleteJob now (fs, s) e := by
    unfold Database.recoverIncompleteJobs
    rw [hjoin]
    simp only [List.foldlM_cons, List.foldlM_nil, bind_pure]
  have hjfilter : s.jobs.filter (fun j2 => j2.libraryId != e.id) = [] := by
    rw [hjobs]
    simp [← hje]
  constructor
  · intro h hcomp hhash hcc
    rw [hrec]
    simp only [Database.processIncompleteJob]
    rw [if_pos (by simpa using hcomp)]
    have hanyid : (s.library.any fun r => r.id == e.id) = true :=
      List.any_eq_true.mpr ⟨e, hmem, by simp⟩
    have hanycc : (s.library.any fun r2 => r2.id != e.id &&
        (r2.path == ReplaceExtension e.path TargetExtension || r2.hash == h)) = false := by
      rw [List.any_eq_false]
      intro r2 h2
      by_cases hid : r2.id = e.id
      · simp [hid]
      · obtain ⟨hp, hh⟩ := hcc r2 h2 hid
        simp [hid, hp, hh]
    simp only [Database.completeIncompleteJob, Database.CompleteTranscoding, hhash, hanyid,
      hanycc, Bool.and_false, Bool.false_eq_true, if_false, Database.removeJob, hjfilter,
      Except.map]
  · intro hcomp
    rw [hrec]
    simp only [Database.processIncompleteJob]
    rw [if_neg (by simp [hcomp])]
    simp only [Database.rollbackIncompleteJob, Database.CancelTranscoding,
      Database.removeTolerant_eq_filter, Database.removeJob, hjfilter, Except.map]

/-- Witness for C1, at the `OneJobOnlyTargetFileExistsNotYetRenamed`
scenario of `TestOpenRecoverIncompleteJobs`: the source is gone, the
intermediate exists, so recovery renames it and finalizes the entry
(`hashReader [48] = 4108050209` is the rehashed fingerprint). -/
theorem recovery_classification_witness :
    Database.recoverIncompleteJobs 77 [("test.transcoding.mp4", [48])]
        { library := [{ id := 1, path := "test.mp4", discovered := 42, transcoded := none,
                        hash := 999 }],
          jobs := [{ id := 1, libraryId := 1, startTime := 5 }],
          nextLibraryId := 2, nextJobId := 2 }
      = .ok ([("test.mp4", [48])],
          { library := [{ id := 1, path := "test.mp4", discovered := 42,
                          transcoded := some 77, hash := 4108050209 }],
            jobs := [], nextLibraryId := 2, nextJobId := 2 }) :=
  (recovery_classification 77 [("test.transcoding.mp4", [48])]
    { library := [{ id := 1, path := "test.mp4", discovered := 42, transcoded := none,
                    hash := 999 }],
      jobs := [{ id := 1, libraryId := 1, startTime := 5 }],
      nextLibraryId := 2, nextJobId := 2 }
    { id := 1, libraryId := 1, startTime := 5 }
    { id := 1, path := "test.mp4", discovered := 42, transcoded := none, hash := 999 }
    (by rfl) (by rfl)).1 4108050209 (by decide) (by rfl) (by decide)

/-- Witness for C8: a pool that recorded a worker error returns it from
`Stop` without draining. -/
theorem poolStop_spec_witness :
    poolStop transcodeDrain
        { errors := [.constraintViolation, .queryReturnedNoRows],
          queued := [{ id := 1, path := "a.mp4", discovered := 0, transcoded := none,
                       hash := 7 }] }
        Database.create
      = .error .constraintViolation :=
  poolStop_spec.1 transcodeDrain
    { errors := [.constraintViolation, .queryReturnedNoRows],
      queued := [{ id := 1, path := "a.mp4", discovered := 0, transcoded := none, hash := 7 }] }
    Database.create .constraintViolation [.queryReturnedNoRows] (by rfl)

end Goamt
